import Mathlib

/-!
Verification of the estate-sale arbitrage pipeline (`estate_arb`).

This file gives a shallow embedding, in Lean 4, of the pure core of the
repository: the price analyzer (`matching/price_analyzer.py`), the brand
matcher (`matching/brand_matcher.py`), the query builder and the
opportunity-engine decision logic (`cli.py`), the vision-merge step
(`cli.py`), and the output ranking (`output/terminal.py`).  Python floats
are modelled as rationals (`ℚ`); Python strings as `List Char`
(with `String` wrappers where convenient); fallible or exception-raising
steps as `Option`/`Except` values.  Each definition is translated
directly from the corresponding Python function.
-/

namespace EstateArb

/-! ## Price Analyzer (`matching/price_analyzer.py`)

`PriceAnalyzer.analyze` takes a list of eBay sold listings, extracts
`sold_price` of each, optionally trims 2-standard-deviation outliers
(only when there are at least 5 prices), and returns a summary dict.
-/

/-- From `models/ebay_listing.py`: a single sold listing (only the fields the
analyzer reads are relevant to the claims; the rest are carried as data). -/
structure EbaySoldListing where
  title : String
  sold_price : ℚ
  sold_date : String := ""
  condition : String := ""
  url : String := ""
  shipping_cost : ℚ := 0
deriving Repr, DecidableEq

/-- The summary dict returned by `PriceAnalyzer.analyze`
(keys `count`, `median`, `average`, `min`, `max`). -/
structure PriceSummary where
  count : ℕ
  median : ℚ
  average : ℚ
  min : ℚ
  max : ℚ
deriving Repr, DecidableEq

/-- Python `statistics.mean`: sum divided by length. -/
def listMean (l : List ℚ) : ℚ := l.sum / l.length

/-- Python `statistics.stdev` squared: the sample variance, with
denominator `n - 1`.  The code only uses `stdev` through the tests
`stdev > 0` and `abs (p - mean) ≤ 2 * stdev`, which are equivalent to
`variance > 0` and `(p - mean)^2 ≤ 4 * variance`, so the square root
itself never needs to be modelled. -/
def sampleVariance (l : List ℚ) : ℚ :=
  ((l.map (fun p => (p - listMean l) ^ 2)).sum) / (l.length - 1)

/-- Python `statistics.median`: sort, take the middle element (odd length)
or the mean of the two middle elements (even length). -/
def listMedian (l : List ℚ) : ℚ :=
  let s := List.insertionSort (· ≤ ·) l
  if s.length % 2 = 1 then s.getD (s.length / 2) 0
  else (s.getD (s.length / 2 - 1) 0 + s.getD (s.length / 2) 0) / 2

/-- Python `min` over a nonempty list (0 on `[]`, unreachable in the code). -/
def listMin : List ℚ → ℚ
  | [] => 0
  | x :: xs => xs.foldl min x

/-- Python `max` over a nonempty list (0 on `[]`, unreachable in the code). -/
def listMax : List ℚ → ℚ
  | [] => 0
  | x :: xs => xs.foldl max x

/-- Python `round` to the nearest integer: banker's rounding
(round half to even). -/
def pyRoundInt (q : ℚ) : ℤ :=
  let f := ⌊q⌋
  let r := q - f
  if r < 1 / 2 then f
  else if 1 / 2 < r then f + 1
  else if f % 2 = 0 then f else f + 1

/-- Python `round(x, 2)`: round to 2 decimal places. -/
def round2 (q : ℚ) : ℚ := (pyRoundInt (100 * q) : ℚ) / 100

/-- The outlier-trimming step of `PriceAnalyzer.analyze` (lines 22-30):
with at least 5 prices and positive standard deviation, keep only prices
within 2 standard deviations of the mean; if that removes everything,
fall back to the untrimmed list. -/
def trimOutliers (prices : List ℚ) : List ℚ :=
  if 5 ≤ prices.length then
    let m := listMean prices
    let v := sampleVariance prices
    if 0 < v then
      let trimmed := prices.filter (fun p => decide ((p - m) ^ 2 ≤ 4 * v))
      if trimmed = [] then prices else trimmed
    else prices
  else prices

/-- Body of `PriceAnalyzer.analyze` on the extracted price list. -/
def analyzePrices (prices : List ℚ) : PriceSummary :=
  let ps := trimOutliers prices
  { count := ps.length
    median := round2 (listMedian ps)
    average := round2 (listMean ps)
    min := round2 (listMin ps)
    max := round2 (listMax ps) }

/-- Function `PriceAnalyzer.analyze`: empty input gives the all-zero summary,
otherwise the prices are extracted and summarised. -/
def analyze (listings : List EbaySoldListing) : PriceSummary :=
  if listings = [] then
    { count := 0, median := 0, average := 0, min := 0, max := 0 }
  else
    analyzePrices (listings.map (·.sold_price))

/-- Convenience: a listing with a given price (other fields defaulted),
mirroring how test observations are fed to the analyzer. -/
def obs (p : ℚ) : EbaySoldListing :=
  { title := "", sold_price := p }

/-! ## Shared string helpers

Python strings are modelled as `List Char`.  `trimL` models `str.strip()`
(remove leading and trailing whitespace). -/

/-- Python `str.strip()`: drop leading and trailing whitespace characters. -/
def trimL (s : List Char) : List Char :=
  ((s.dropWhile Char.isWhitespace).reverse.dropWhile Char.isWhitespace).reverse

/-- Lower-case a character list, modelling Python `str.lower()` and the
effect of `re.IGNORECASE` on literal patterns (ASCII case folding). -/
def lowerL (s : List Char) : List Char := s.map Char.toLower

/-! ## Brand Matcher (`matching/brand_matcher.py`)

`BrandMatcher` compiles, for every brand search term, the regex
`r"\b" + re.escape(term) + r"\b"` with `re.IGNORECASE`, and
`match_sale` scans the sale description with each pattern in configured
order, emitting at most one `SaleItem` per brand (first matching term
wins, `break` after a match). -/

/-- From `config.py`: one configured brand rule. -/
structure BrandConfig where
  name : String
  category : String
  search_terms : List String
  ebay_search_suffix : String := ""
  min_ebay_price : ℚ := 10
deriving Repr, DecidableEq

/-- From `models/estate_sale.py`: an item detected within an estate sale. -/
structure SaleItem where
  brand : String
  description : String
  estimated_price : Option ℚ := none
  photo_urls : List String := []
  confidence : ℚ := 1
  source : String := "text"
  item_type : String := ""
  reasoning : String := ""
  ebay_query : String := ""
deriving Repr, DecidableEq

/-- Regex `\w`: a word character (letters, digits, underscore). -/
def isWordChar (c : Char) : Bool := c.isAlphanum || c = '_'

/-- Regex `\b` at position `i` of `text`: the word-character status of the
character before the position differs from that of the character at the
position (positions outside the text count as non-word). -/
def boundaryAt (text : List Char) (i : ℕ) : Bool :=
  let left := if i = 0 then false else isWordChar (text.getD (i - 1) ' ')
  let right := isWordChar (text.getD i ' ')
  left != right

/-- The pattern `\b<term>\b` (with `re.IGNORECASE`) matches `text` at
position `i`: the characters of `term` occur there up to case, flanked by
word boundaries. -/
def termMatchAt (text term : List Char) (i : ℕ) : Bool :=
  decide (i + term.length ≤ text.length)
    && (lowerL ((text.drop i).take term.length) == lowerL term)
    && boundaryAt text i
    && boundaryAt text (i + term.length)

/-- Python `pattern.search(text)`: position of the leftmost match of
`\b<term>\b`, if any. -/
def firstMatchPos (text term : List Char) : Option ℕ :=
  (List.range (text.length + 1)).find? (fun i => termMatchAt text term i)

/-- Maximal run of decimal digits read as a natural number
(Python `int` of a digit string). -/
def digitsToNat (l : List Char) : ℕ :=
  l.foldl (fun acc c => 10 * acc + (c.toNat - 48)) 0

/-- The greedy repetition `(?:,\d{3})*`: consume as many `,ddd` groups as
possible, returning the consumed characters. -/
def commaGroups : List Char → List Char
  | ',' :: a :: b :: c :: rest =>
    if a.isDigit && b.isDigit && c.isDigit then
      ',' :: a :: b :: c :: commaGroups rest
    else []
  | _ => []

/-- The optional group `(?:\.\d{2})?`: a dot followed by exactly two
digits, if present. -/
def centsPart : List Char → List Char
  | '.' :: a :: b :: _ => if a.isDigit && b.isDigit then ['.', a, b] else []
  | _ => []

/-- Attempt to match `\$(\d+(?:,\d{3})*(?:\.\d{2})?)` at position `j` of
`region`, returning the captured group (without the dollar sign).  The
regex needs no backtracking: `\d+` is maximal, then comma groups, then
the optional cents. -/
def priceTokenAt (region : List Char) (j : ℕ) : Option (List Char) :=
  match region.drop j with
  | '$' :: rest =>
    let ds := rest.takeWhile Char.isDigit
    if ds = [] then none
    else
      let rest2 := rest.drop ds.length
      let gs := commaGroups rest2
      let cs := centsPart (rest2.drop gs.length)
      some (ds ++ gs ++ cs)
  | _ => none

/-- Python `price_pattern.search(region)`: captured group of the leftmost
price match, if any. -/
def findPriceToken (region : List Char) : Option (List Char) :=
  (List.range region.length).findSome? (fun j => priceTokenAt region j)

/-- Python `float(price_str)` on a string of digits with an optional
2-digit decimal part (commas already removed). -/
def parseDecimal (s : List Char) : ℚ :=
  let intPart := s.takeWhile (fun c => c ≠ '.')
  match s.dropWhile (fun c => c ≠ '.') with
  | '.' :: ds => (digitsToNat intPart : ℚ) + (digitsToNat ds : ℚ) / (10 ^ ds.length)
  | _ => (digitsToNat intPart : ℚ)

/-- Method `BrandMatcher._extract_price_near_match`: search a window of
200 characters either side of the match (which spans `[start, fin)`) for
a dollar amount; parse the first one found, commas removed. -/
def extract_price_near_match (text : List Char) (start fin : ℕ) : Option ℚ :=
  let rs := start - 200
  let ren := Nat.min text.length (fin + 200)
  let region := (text.drop rs).take (ren - rs)
  (findPriceToken region).map (fun tok => parseDecimal (tok.filter (fun c => c ≠ ',')))

/-- The `SaleItem` built by `BrandMatcher.match_sale` for a match of
`term` at position `i`: context is the stripped window of 100 characters
either side of the match. -/
def mkTextItem (text : List Char) (brandName : String) (term : List Char) (i : ℕ) : SaleItem :=
  let s := i - 100
  let e := Nat.min text.length (i + term.length + 100)
  let context := trimL ((text.drop s).take (e - s))
  { brand := brandName
    description := String.mk context
    estimated_price := extract_price_near_match text i (i + term.length)
    confidence := 1
    source := "text" }

/-- The inner loop of `BrandMatcher.match_sale` for one brand: try the
brand's patterns in configured order and return the first term that has a
match, with the position of its leftmost match (`break` after a hit). -/
def brandFirstMatch (text : List Char) (b : BrandConfig) : Option (List Char × ℕ) :=
  b.search_terms.findSome? (fun term =>
    (firstMatchPos text term.toList).map (fun i => (term.toList, i)))

/-- The item (if any) that `BrandMatcher.match_sale` emits for one brand. -/
def matchBrand (text : List Char) (b : BrandConfig) : Option SaleItem :=
  (brandFirstMatch text b).map (fun ti => mkTextItem text b.name ti.1 ti.2)

/-- Method `BrandMatcher.match_sale` on a sale description: for each brand
in configured order, emit at most one item (first matching term wins);
empty description gives no items (`if not text`). -/
def match_sale (brands : List BrandConfig) (text : List Char) : List SaleItem :=
  if text = [] then []
  else brands.filterMap (matchBrand text)

/-! ## Query Builder (`cli.py`, `_simplify_query` and the query
resolution in `run`, lines 234-245) -/

/-- Helper for `re.sub(r"\(.*?\)", "", s)`: from the characters after an
opening parenthesis, the distance to the first `)` not preceded by a
newline, if any (lazy `.*?` with `.` not matching `\n`). -/
def closeDist : List Char → Option ℕ
  | [] => none
  | c :: rest =>
    if c = ')' then some 0
    else if c = '\n' then none
    else (closeDist rest).map (· + 1)

/-- Worker for `stripParens`: `skip` pending characters are dropped
(they belong to a parenthetical span being removed), then scanning
continues. -/
def stripParensAux (skip : ℕ) (s : List Char) : List Char :=
  match skip, s with
  | _, [] => []
  | k + 1, _ :: rest => stripParensAux k rest
  | 0, c :: rest =>
    if c = '(' then
      match closeDist rest with
      | some d => stripParensAux (d + 1) rest
      | none => c :: stripParensAux 0 rest
    else c :: stripParensAux 0 rest

/-- Python `re.sub(r"\(.*?\)", "", s)`: remove every leftmost-match
parenthetical span (from a `(` to the nearest following `)` with no
newline in between); an unclosed `(` is kept verbatim. -/
def stripParens (s : List Char) : List Char := stripParensAux 0 s

/-- Case-insensitive "starts with": the first `pat.length` characters of
`s` equal `pat` up to case. -/
def startsWithCI (pat s : List Char) : Bool :=
  decide (pat.length ≤ s.length) && (lowerL (s.take pat.length) == lowerL pat)

/-- Worker for `removeAllCI`: `skip` characters of a matched occurrence
remain to be deleted before scanning resumes (matches are non-overlapping
and scanned left to right). -/
def removeAllCIAux (pat : List Char) (skip : ℕ) (s : List Char) : List Char :=
  match skip, s with
  | _, [] => []
  | k + 1, _ :: rest => removeAllCIAux pat k rest
  | 0, c :: rest =>
    if startsWithCI pat (c :: rest) then removeAllCIAux pat (pat.length - 1) rest
    else c :: removeAllCIAux pat 0 rest

/-- Python `re.sub(re.escape(pat), "", s, flags=re.IGNORECASE)` for a
literal `pat`: delete every leftmost, non-overlapping, case-insensitive
occurrence of `pat` (the code only calls this with a nonempty brand). -/
def removeAllCI (pat : List Char) (s : List Char) : List Char :=
  if pat = [] then s else removeAllCIAux pat 0 s

/-- Worker for `splitWS`: `cur` is the reversed current word. -/
def splitWSAux (cur : List Char) (s : List Char) : List (List Char) :=
  match s with
  | [] => if cur = [] then [] else [cur.reverse]
  | c :: rest =>
    if c.isWhitespace then
      if cur = [] then splitWSAux [] rest
      else cur.reverse :: splitWSAux [] rest
    else splitWSAux (c :: cur) rest

/-- Python `str.split()` with no separator: whitespace-delimited words,
empty strings discarded. -/
def splitWS (s : List Char) : List (List Char) := splitWSAux [] s

/-- The noise-word stoplist of `_simplify_query`. -/
def noiseWords : List (List Char) :=
  ["vintage", "antique", "original", "authentic", "genuine", "classic",
   "various", "unknown", "with", "and", "the", "for", "from", "set",
   "collection", "collectible", "collectibles", "style", "type"].map String.toList

/-- Python `query[:50].rsplit(" ", 1)[0]` applied to a list `s` that is
already truncated: everything strictly before the last space, or `s`
itself when it contains no space. -/
def dropLastWord (s : List Char) : List Char :=
  match s.reverse.dropWhile (fun c => c ≠ ' ') with
  | [] => s
  | _ :: rest => rest.reverse

/-- The query `_simplify_query` builds before the final 50-character
truncation: brand part (dropped when empty or "Unknown"), item type with
parentheticals and slash-alternatives stripped, the brand removed
case-insensitively, noise words dropped, at most 3 tokens kept (or the
first 2 original tokens when filtering removed everything), joined and
stripped. -/
def rawQuery (brand item_type : List Char) : List Char :=
  let bp := if brand = [] ∨ lowerL brand = "unknown".toList then [] else brand
  let simple1 := stripParens item_type
  let simple2 := simple1.takeWhile (fun c => c ≠ '/')
  let simple3 := if bp = [] then simple2 else removeAllCI bp simple2
  let words := splitWS simple3
  let core0 := words.filter (fun w => !(noiseWords.contains (lowerL w)))
  let core := if core0 = [] then words.take 2 else core0.take 3
  let suffix := trimL (List.intercalate [' '] core)
  trimL (bp ++ ' ' :: suffix)

/-- Function `_simplify_query` (character-list form): the raw query,
truncated to 50 characters and trimmed back to the last space when it is
longer than 50 characters. -/
def simplifyQueryChars (brand item_type : List Char) : List Char :=
  let query := rawQuery brand item_type
  if 50 < query.length then dropLastWord (query.take 50) else query

/-- Function `_simplify_query` on strings. -/
def simplify_query (brand item_type : String) : String :=
  String.mk (simplifyQueryChars brand.toList item_type.toList)

/-- The query/minimum-price resolution of `run` (cli.py lines 234-245):
an item whose brand has a configured rule uses `"<brand> <suffix>"`
stripped, with the rule's minimum price; otherwise the minimum price is
15 and the query is the item's precomputed `ebay_query` when nonempty
(Python `or`), else the synthesized `_simplify_query` result. -/
def build_query (brandConfig : Option BrandConfig) (item : SaleItem) : String × ℚ :=
  match brandConfig with
  | some bc =>
    (String.mk (trimL (item.brand ++ " " ++ bc.ebay_search_suffix).toList), bc.min_ebay_price)
  | none =>
    (if item.ebay_query ≠ "" then item.ebay_query
     else simplify_query item.brand item.item_type, 15)

/-! ## Data model for sales and opportunities
(`models/estate_sale.py`, `models/opportunity.py`) -/

/-- From `models/estate_sale.py`: an estate sale listing. -/
structure EstateSale where
  sale_id : String
  title : String
  organizer : String
  address : String
  city : String
  state : String
  zip_code : String
  url : String
  dates : List String := []
  description : String := ""
  photo_urls : List String := []
  photo_count : ℕ := 0
  matched_items : List SaleItem := []
  distance_miles : Option ℚ := none
  is_online : Bool := false
deriving Repr, DecidableEq

/-- From `models/opportunity.py`: the final output record. -/
structure ArbitrageOpportunity where
  estate_sale_title : String
  estate_sale_url : String
  estate_sale_dates : List String
  estate_sale_location : String
  matched_brand : String
  matched_description : String
  detection_source : String
  estate_price_estimate : Option ℚ := none
  ebay_median_sold : ℚ := 0
  ebay_average_sold : ℚ := 0
  ebay_sample_count : ℕ := 0
  ebay_price_range : ℚ × ℚ := (0, 0)
  profit_multiplier : Option ℚ := none
  photo_urls : List String := []
  item_type : String := ""
  vision_reasoning : String := ""
deriving Repr, DecidableEq

/-! ## Vision-merge step (`cli.py`, lines 151-194) -/

/-- One finding of the vision collaborator, with the defaults used by the
`vi.get(...)` calls in `run` already applied. -/
structure VisionFinding where
  brand : String := "Unknown"
  item_type : String := ""
  ebay_query : String := ""
  estimated_value_low : ℚ := 0
  estimated_value_high : ℚ := 0
  confidence : ℚ := 1 / 2
  reasoning : String := ""
deriving Repr, DecidableEq

/-- The new vision-only `SaleItem` appended by `run` when a finding's
brand has no existing item on the sale. -/
def visionItem (f : VisionFinding) : SaleItem :=
  { brand := f.brand
    description := f.item_type ++ " (identified by AI vision)"
    confidence := f.confidence
    source := "vision"
    item_type := f.item_type
    reasoning := f.reasoning
    ebay_query := f.ebay_query }

/-- Update `existing[0]` (the first item whose brand equals the finding's
brand): set `source` to `"both"` and overwrite `reasoning`. -/
def updateFirstMatch (f : VisionFinding) : List SaleItem → List SaleItem
  | [] => []
  | it :: rest =>
    if it.brand = f.brand then
      { it with source := "both", reasoning := f.reasoning } :: rest
    else it :: updateFirstMatch f rest

/-- Processing of one vision finding against a sale's accumulated items
(`cli.py` lines 167-186): if an item with the same brand exists
(case-sensitive exact match), mutate the first such item in place;
otherwise append a new vision-only item at the end. -/
def mergeFinding (items : List SaleItem) (f : VisionFinding) : List SaleItem :=
  if items.any (fun it => it.brand == f.brand) then updateFirstMatch f items
  else items ++ [visionItem f]

/-- All findings of one sale applied in order. -/
def mergeFindings (items : List SaleItem) (fs : List VisionFinding) : List SaleItem :=
  fs.foldl mergeFinding items

/-- Per-sale vision step with the `try`/`except` of `run`: a raised error
is caught and the sale's items are left untouched; a successful analysis
merges each finding in order. -/
def visionPhaseSale (result : Except String (List VisionFinding))
    (items : List SaleItem) : List SaleItem :=
  match result with
  | .error _ => items
  | .ok fs => mergeFindings items fs

/-- The vision phase over a batch of sales: each sale's photo analysis
(modelled as an `Except`-valued collaborator) is applied to that sale's
accumulated items, independently of the other sales. -/
def visionPhase (analyzeF : EstateSale → Except String (List VisionFinding))
    (sales : List EstateSale) : List EstateSale :=
  sales.map (fun s =>
    { s with matched_items := visionPhaseSale (analyzeF s) s.matched_items })

/-! ## Opportunity Engine decision logic (`cli.py`, lines 258-286) -/

/-- The profit-multiplier computation of `run`: Python
`if item.estimated_price and item.estimated_price > 0` — the estimate
must be present, truthy (nonzero) and positive, else the multiplier is
left as `None`. -/
def profitMultiplier (estimated_price : Option ℚ) (median : ℚ) : Option ℚ :=
  match estimated_price with
  | none => none
  | some p => if p ≠ 0 ∧ 0 < p then some (median / p) else none

/-- Python `f"{city}, {state} {zip}".strip(", ")`: strip any leading and
trailing characters belonging to the set with the comma and the space. -/
def stripCommaSpace (s : List Char) : List Char :=
  let p := fun c => c = ',' ∨ c = ' '
  ((s.dropWhile (fun c => decide (p c))).reverse.dropWhile (fun c => decide (p c))).reverse

/-- The `ArbitrageOpportunity` record constructed by `run` once the
admission test has passed. -/
def mkOpportunity (sale : EstateSale) (item : SaleItem) (stats : PriceSummary)
    (pm : Option ℚ) : ArbitrageOpportunity :=
  { estate_sale_title := sale.title
    estate_sale_url := sale.url
    estate_sale_dates := sale.dates
    estate_sale_location :=
      String.mk (stripCommaSpace
        (sale.city ++ ", " ++ sale.state ++ " " ++ sale.zip_code).toList)
    matched_brand := item.brand
    matched_description := item.description
    detection_source := item.source
    estate_price_estimate := item.estimated_price
    ebay_median_sold := stats.median
    ebay_average_sold := stats.average
    ebay_sample_count := stats.count
    ebay_price_range := (stats.min, stats.max)
    profit_multiplier := pm
    photo_urls := item.photo_urls
    item_type := item.item_type
    vision_reasoning := item.reasoning }

/-- The per-item decision of `run` (cli.py lines 258-286): an opportunity
is constructed when `stats["count"] > 0 and stats["median"] >= min_price`;
the constructed opportunity is appended to the output when
`profit_mult is None or profit_mult >= multiplier`. -/
def processItem (sale : EstateSale) (item : SaleItem) (stats : PriceSummary)
    (minPrice threshold : ℚ) : Option ArbitrageOpportunity :=
  if 0 < stats.count ∧ minPrice ≤ stats.median then
    let pm := profitMultiplier item.estimated_price stats.median
    let opp := mkOpportunity sale item stats pm
    match pm with
    | none => some opp
    | some m => if threshold ≤ m then some opp else none
  else none

/-! ## Output ranking (`output/terminal.py`, `display_opportunities`)

Python `sorted(opportunities, key=lambda o: o.ebay_median_sold,
reverse=True)` is a stable sort by descending median.  A stable sort is
extensionally determined by its order and its stability, so the stable
`insertionSort` models it; the theorems below establish exactly the
order and stability properties. -/

/-- Convenience: a sale with a given identifier (other fields defaulted),
mirroring minimal scraped sale records. -/
def mkSale (i : String) : EstateSale :=
  { sale_id := i, title := i, organizer := "", address := "", city := "",
    state := "", zip_code := "", url := "" }

/-- Descending order on the eBay median. -/
def medianDesc (a b : ArbitrageOpportunity) : Prop :=
  b.ebay_median_sold ≤ a.ebay_median_sold

instance : DecidableRel medianDesc := fun a b =>
  inferInstanceAs (Decidable (b.ebay_median_sold ≤ a.ebay_median_sold))

/-- Method `TerminalOutput.display_opportunities`, step 1: the displayed
order of the opportunities. -/
def display_sort (opps : List ArbitrageOpportunity) : List ArbitrageOpportunity :=
  List.insertionSort medianDesc opps

/-! ## Theorems -/

/-- Case analysis on the outlier-trimming step: either it returns the
input unchanged, or it returns the nonempty 2-standard-deviation filter
of the input. -/
theorem trimOutliers_cases (l : List ℚ) :
    trimOutliers l = l ∨
    (trimOutliers l =
        l.filter (fun p => decide ((p - listMean l) ^ 2 ≤ 4 * sampleVariance l)) ∧
      trimOutliers l ≠ []) := by
  unfold trimOutliers
  dsimp only
  split_ifs with h1 h2 h3
  · left; rfl
  · right; exact ⟨rfl, h3⟩
  · left; rfl
  · left; rfl

theorem trimOutliers_ne_nil {l : List ℚ} (h : l ≠ []) : trimOutliers l ≠ [] := by
  rcases trimOutliers_cases l with hc | ⟨_, hne⟩
  · rw [hc]; exact h
  · exact hne

theorem trimOutliers_length_le (l : List ℚ) : (trimOutliers l).length ≤ l.length := by
  rcases trimOutliers_cases l with hc | ⟨hc, _⟩
  · rw [hc]
  · rw [hc]; exact List.length_filter_le _ l

/-- C1 (counterexample): on `[10, 12, 11, 13, 1000]` the analyzer does
not return the summary the claim states (count 4, median 11.5, mean 11.5,
min 10, max 13): the outlier 1000 deviates from the mean by 790.8, which
is within two sample standard deviations (2·stdev ≈ 884.15), so nothing
is trimmed. -/
theorem claim1_counterexample :
    analyze ([10, 12, 11, 13, 1000].map obs) ≠
      { count := 4, median := 23 / 2, average := 23 / 2, min := 10, max := 13 } := by
  norm_num [analyze, analyzePrices, trimOutliers, obs, listMean, sampleVariance,
    listMedian, listMin, listMax, round2, pyRoundInt, List.insertionSort,
    List.orderedInsert, List.cons_ne_nil]

/-- C1 (amended): on `[10, 12, 11, 13, 1000]` the sample mean is indeed
209.2, but the trimming step keeps all five observations (the deviation
of 1000 is below two sample standard deviations), and the summary is
computed over the full list: count 5, median 12, mean 209.2, min 10,
max 1000. -/
theorem claim1_analyze_example :
    analyze ([10, 12, 11, 13, 1000].map obs) =
      { count := 5, median := 12, average := 1046 / 5, min := 10, max := 1000 } ∧
    trimOutliers [10, 12, 11, 13, 1000] = [10, 12, 11, 13, 1000] ∧
    listMean [10, 12, 11, 13, 1000] = 1046 / 5 := by
  refine ⟨?_, ?_, ?_⟩
  · norm_num [analyze, analyzePrices, trimOutliers, obs, listMean, sampleVariance,
      listMedian, listMin, listMax, round2, pyRoundInt, List.insertionSort,
      List.orderedInsert, List.cons_ne_nil]
  · norm_num [trimOutliers, listMean, sampleVariance]
  · norm_num [listMean]

/-- C5: for every non-empty list of observations the analyzer's summary
has a positive count — the trimming step either keeps a nonempty
filtered list or falls back to the full untrimmed list. -/
theorem claim5_count_pos (listings : List EbaySoldListing) (h : listings ≠ []) :
    0 < (analyze listings).count := by
  unfold analyze
  rw [if_neg h]
  have hm : listings.map (·.sold_price) ≠ [] := by
    simpa using h
  have := trimOutliers_ne_nil hm
  simpa [analyzePrices, List.length_pos] using this

/-- C5 (witness): the theorem applied to the one-element list `[3]`. -/
theorem claim5_witness :
    ([obs 3] ≠ ([] : List EbaySoldListing)) ∧ 0 < (analyze [obs 3]).count :=
  ⟨by simp, claim5_count_pos [obs 3] (by simp)⟩

/-! ### Permutation invariance of the price analyzer (C6) -/

theorem listMean_perm {l₁ l₂ : List ℚ} (h : l₁.Perm l₂) : listMean l₁ = listMean l₂ := by
  unfold listMean
  rw [h.sum_eq, h.length_eq]

theorem sampleVariance_perm {l₁ l₂ : List ℚ} (h : l₁.Perm l₂) :
    sampleVariance l₁ = sampleVariance l₂ := by
  unfold sampleVariance
  simp only [listMean_perm h, h.length_eq,
    (h.map (fun p => (p - listMean l₂) ^ 2)).sum_eq]

theorem insertionSort_perm_eq {l₁ l₂ : List ℚ} (h : l₁.Perm l₂) :
    List.insertionSort (· ≤ ·) l₁ = List.insertionSort (· ≤ ·) l₂ :=
  List.eq_of_perm_of_sorted
    (((List.perm_insertionSort _ l₁).trans h).trans (List.perm_insertionSort _ l₂).symm)
    (List.sorted_insertionSort _ l₁) (List.sorted_insertionSort _ l₂)

theorem listMedian_perm {l₁ l₂ : List ℚ} (h : l₁.Perm l₂) : listMedian l₁ = listMedian l₂ := by
  unfold listMedian
  rw [insertionSort_perm_eq h]

theorem foldl_min_spec (xs : List ℚ) (x : ℚ) :
    xs.foldl min x ∈ x :: xs ∧ ∀ y ∈ x :: xs, xs.foldl min x ≤ y := by
  induction xs generalizing x with
  | nil => simp
  | cons a as ih =>
    obtain ⟨ihm, ihle⟩ := ih (min x a)
    constructor
    · simp only [List.foldl_cons]
      rcases List.mem_cons.mp ihm with hm | hm
      · rcases min_choice x a with hc | hc <;> rw [hm, hc] <;> simp
      · simp [hm]
    · intro y hy
      simp only [List.foldl_cons]
      rcases List.mem_cons.mp hy with rfl | hy2
      · exact le_trans (ihle _ (List.mem_cons_self _ _)) (min_le_left _ _)
      rcases List.mem_cons.mp hy2 with rfl | hy3
      · exact le_trans (ihle _ (List.mem_cons_self _ _)) (min_le_right _ _)
      · exact ihle y (List.mem_cons_of_mem _ hy3)

theorem foldl_max_spec (xs : List ℚ) (x : ℚ) :
    xs.foldl max x ∈ x :: xs ∧ ∀ y ∈ x :: xs, y ≤ xs.foldl max x := by
  induction xs generalizing x with
  | nil => simp
  | cons a as ih =>
    obtain ⟨ihm, ihle⟩ := ih (max x a)
    constructor
    · simp only [List.foldl_cons]
      rcases List.mem_cons.mp ihm with hm | hm
      · rcases max_choice x a with hc | hc <;> rw [hm, hc] <;> simp
      · simp [hm]
    · intro y hy
      simp only [List.foldl_cons]
      rcases List.mem_cons.mp hy with rfl | hy2
      · exact le_trans (le_max_left _ _) (ihle _ (List.mem_cons_self _ _))
      rcases List.mem_cons.mp hy2 with rfl | hy3
      · exact le_trans (le_max_right _ _) (ihle _ (List.mem_cons_self _ _))
      · exact ihle y (List.mem_cons_of_mem _ hy3)

theorem listMin_mem {l : List ℚ} (h : l ≠ []) : listMin l ∈ l := by
  cases l with
  | nil => exact absurd rfl h
  | cons x xs => exact (foldl_min_spec xs x).1

theorem listMin_le {l : List ℚ} {y : ℚ} (hy : y ∈ l) : listMin l ≤ y := by
  cases l with
  | nil => simp at hy
  | cons x xs => exact (foldl_min_spec xs x).2 y hy

theorem listMax_mem {l : List ℚ} (h : l ≠ []) : listMax l ∈ l := by
  cases l with
  | nil => exact absurd rfl h
  | cons x xs => exact (foldl_max_spec xs x).1

theorem le_listMax {l : List ℚ} {y : ℚ} (hy : y ∈ l) : y ≤ listMax l := by
  cases l with
  | nil => simp at hy
  | cons x xs => exact (foldl_max_spec xs x).2 y hy

theorem listMin_perm {l₁ l₂ : List ℚ} (h : l₁.Perm l₂) : listMin l₁ = listMin l₂ := by
  cases l₁ with
  | nil => rw [h.nil_eq]
  | cons x xs =>
    have h1 : (x :: xs) ≠ ([] : List ℚ) := by simp
    have h2 : l₂ ≠ [] := fun he => by simp [he ▸ h |>.eq_nil] at h1
    exact le_antisymm (listMin_le (h.symm.subset (listMin_mem h2)))
      (listMin_le (h.subset (listMin_mem h1)))

theorem listMax_perm {l₁ l₂ : List ℚ} (h : l₁.Perm l₂) : listMax l₁ = listMax l₂ := by
  cases l₁ with
  | nil => rw [h.nil_eq]
  | cons x xs =>
    have h1 : (x :: xs) ≠ ([] : List ℚ) := by simp
    have h2 : l₂ ≠ [] := fun he => by simp [he ▸ h |>.eq_nil] at h1
    exact le_antisymm (le_listMax (h.subset (listMax_mem h1)))
      (le_listMax (h.symm.subset (listMax_mem h2)))

theorem trimOutliers_perm {l₁ l₂ : List ℚ} (h : l₁.Perm l₂) :
    (trimOutliers l₁).Perm (trimOutliers l₂) := by
  have hf := h.filter (fun p => decide ((p - listMean l₂) ^ 2 ≤ 4 * sampleVariance l₂))
  have hiff : (List.filter (fun p => decide ((p - listMean l₂) ^ 2 ≤ 4 * sampleVariance l₂)) l₁ = [])
      ↔ (List.filter (fun p => decide ((p - listMean l₂) ^ 2 ≤ 4 * sampleVariance l₂)) l₂ = []) :=
    ⟨fun he => (he ▸ hf).symm.eq_nil, fun he => (he ▸ hf.symm).symm.eq_nil⟩
  unfold trimOutliers
  dsimp only
  simp only [listMean_perm h, sampleVariance_perm h, h.length_eq, hiff]
  split_ifs with h1 h2 h3
  · exact h
  · exact hf
  · exact h
  · exact h

theorem analyzePrices_perm {l₁ l₂ : List ℚ} (h : l₁.Perm l₂) :
    analyzePrices l₁ = analyzePrices l₂ := by
  have ht := trimOutliers_perm h
  unfold analyzePrices
  simp only [ht.length_eq, listMean_perm ht, listMedian_perm ht, listMin_perm ht,
    listMax_perm ht]

/-- C6: the analyzer is invariant under reordering of its input — every
component of the summary, including the trimming step, depends only on
the multiset of prices. -/
theorem claim6_perm_invariant (l₁ l₂ : List EbaySoldListing) (h : l₁.Perm l₂) :
    analyze l₁ = analyze l₂ := by
  unfold analyze
  by_cases h1 : l₁ = []
  · subst h1
    rw [h.nil_eq]
  · have h2 : l₂ ≠ [] := fun he => h1 (he ▸ h).eq_nil
    rw [if_neg h1, if_neg h2]
    exact analyzePrices_perm (h.map _)

/-- C6 (witness): the theorem applied to the transposition of a
two-element list. -/
theorem claim6_witness :
    ([obs 1, obs 2].Perm [obs 2, obs 1]) ∧ analyze [obs 1, obs 2] = analyze [obs 2, obs 1] :=
  ⟨List.Perm.swap _ _ _, claim6_perm_invariant _ _ (List.Perm.swap _ _ _)⟩

/-! ### Summary invariants (C10) -/

theorem pyRoundInt_bounds (q : ℚ) : ⌊q⌋ ≤ pyRoundInt q ∧ pyRoundInt q ≤ ⌊q⌋ + 1 := by
  unfold pyRoundInt
  dsimp only
  split_ifs <;> omega

theorem pyRoundInt_mono {a b : ℚ} (hab : a ≤ b) : pyRoundInt a ≤ pyRoundInt b := by
  by_cases hf : ⌊a⌋ = ⌊b⌋
  · have hr : a - (⌊a⌋ : ℚ) ≤ b - (⌊b⌋ : ℚ) := by rw [hf]; linarith
    unfold pyRoundInt
    dsimp only
    rw [hf]
    rw [hf] at hr
    split_ifs <;> first | omega | (exfalso; linarith)
  · have h1 : ⌊a⌋ ≤ ⌊b⌋ := Int.floor_mono hab
    have h2 := pyRoundInt_bounds a
    have h3 := pyRoundInt_bounds b
    omega

theorem round2_mono {a b : ℚ} (h : a ≤ b) : round2 a ≤ round2 b := by
  unfold round2
  have h1 : pyRoundInt (100 * a) ≤ pyRoundInt (100 * b) :=
    pyRoundInt_mono (by linarith)
  have h2 : (pyRoundInt (100 * a) : ℚ) ≤ (pyRoundInt (100 * b) : ℚ) := by
    exact_mod_cast h1
  linarith

theorem listMin_le_listMean {l : List ℚ} (h : l ≠ []) : listMin l ≤ listMean l := by
  have hsum : l.length • listMin l ≤ l.sum :=
    List.card_nsmul_le_sum l _ (fun y hy => listMin_le hy)
  rw [nsmul_eq_mul] at hsum
  have hn : (0 : ℚ) < l.length := by
    exact_mod_cast List.length_pos.mpr h
  unfold listMean
  rw [le_div_iff₀ hn]
  linarith

theorem listMean_le_listMax {l : List ℚ} (h : l ≠ []) : listMean l ≤ listMax l := by
  have hsum : l.sum ≤ l.length • listMax l :=
    List.sum_le_card_nsmul l _ (fun y hy => le_listMax hy)
  rw [nsmul_eq_mul] at hsum
  have hn : (0 : ℚ) < l.length := by
    exact_mod_cast List.length_pos.mpr h
  unfold listMean
  rw [div_le_iff₀ hn]
  linarith

theorem listMin_le_listMedian {l : List ℚ} (h : l ≠ []) : listMin l ≤ listMedian l := by
  unfold listMedian
  dsimp only
  have hperm : (List.insertionSort (· ≤ ·) l).Perm l := List.perm_insertionSort _ l
  have hslpos : 0 < (List.insertionSort (· ≤ ·) l).length := by
    rw [hperm.length_eq]
    exact List.length_pos.mpr h
  have hidx2 : (List.insertionSort (· ≤ ·) l).length / 2 < (List.insertionSort (· ≤ ·) l).length :=
    Nat.div_lt_self hslpos (by norm_num)
  have hidx1 : (List.insertionSort (· ≤ ·) l).length / 2 - 1 < (List.insertionSort (· ≤ ·) l).length := by
    omega
  split_ifs with hodd
  · rw [List.getD_eq_getElem _ 0 hidx2]
    exact listMin_le (hperm.subset (List.getElem_mem hidx2))
  · rw [List.getD_eq_getElem _ 0 hidx1, List.getD_eq_getElem _ 0 hidx2]
    have b1 := listMin_le (hperm.subset (List.getElem_mem hidx1))
    have b2 := listMin_le (hperm.subset (List.getElem_mem hidx2))
    linarith

theorem listMedian_le_listMax {l : List ℚ} (h : l ≠ []) : listMedian l ≤ listMax l := by
  unfold listMedian
  dsimp only
  have hperm : (List.insertionSort (· ≤ ·) l).Perm l := List.perm_insertionSort _ l
  have hslpos : 0 < (List.insertionSort (· ≤ ·) l).length := by
    rw [hperm.length_eq]
    exact List.length_pos.mpr h
  have hidx2 : (List.insertionSort (· ≤ ·) l).length / 2 < (List.insertionSort (· ≤ ·) l).length :=
    Nat.div_lt_self hslpos (by norm_num)
  have hidx1 : (List.insertionSort (· ≤ ·) l).length / 2 - 1 < (List.insertionSort (· ≤ ·) l).length := by
    omega
  split_ifs with hodd
  · rw [List.getD_eq_getElem _ 0 hidx2]
    exact le_listMax (hperm.subset (List.getElem_mem hidx2))
  · rw [List.getD_eq_getElem _ 0 hidx1, List.getD_eq_getElem _ 0 hidx2]
    have b1 := le_listMax (hperm.subset (List.getElem_mem hidx1))
    have b2 := le_listMax (hperm.subset (List.getElem_mem hidx2))
    linarith

/-- C10: for non-empty input the rounded summary satisfies
`min ≤ median ≤ max` and `min ≤ mean ≤ max`, and the count never exceeds
the number of input observations. -/
theorem claim10_summary_invariants (listings : List EbaySoldListing) (h : listings ≠ []) :
    (analyze listings).min ≤ (analyze listings).median ∧
    (analyze listings).median ≤ (analyze listings).max ∧
    (analyze listings).min ≤ (analyze listings).average ∧
    (analyze listings).average ≤ (analyze listings).max ∧
    (analyze listings).count ≤ listings.length := by
  unfold analyze
  rw [if_neg h]
  have hpne : listings.map (·.sold_price) ≠ [] := by simpa using h
  have htne := trimOutliers_ne_nil hpne
  unfold analyzePrices
  dsimp only
  refine ⟨round2_mono (listMin_le_listMedian htne),
    round2_mono (listMedian_le_listMax htne),
    round2_mono (listMin_le_listMean htne),
    round2_mono (listMean_le_listMax htne), ?_⟩
  calc (trimOutliers (listings.map (·.sold_price))).length
      ≤ (listings.map (·.sold_price)).length := trimOutliers_length_le _
    _ = listings.length := by simp

/-- C10 (witness): the theorem applied to the one-element list `[7]`. -/
theorem claim10_witness :
    ([obs 7] ≠ ([] : List EbaySoldListing)) ∧
    (analyze [obs 7]).min ≤ (analyze [obs 7]).median ∧
    (analyze [obs 7]).median ≤ (analyze [obs 7]).max ∧
    (analyze [obs 7]).min ≤ (analyze [obs 7]).average ∧
    (analyze [obs 7]).average ≤ (analyze [obs 7]).max ∧
    (analyze [obs 7]).count ≤ [obs 7].length :=
  ⟨by simp, claim10_summary_invariants [obs 7] (by simp)⟩

/-! ### Opportunity admission and inclusion (C2) -/

/-- C2: for every candidate item, an opportunity comes out of the
per-item decision exactly when the summary count is positive, the median
reaches the item's resolved minimum price, and the profit multiplier is
either undefined (no positive estate estimate) or at least the
configured threshold.  In particular an opportunity is constructed only
under the admission test, and a constructed opportunity is kept iff the
multiplier test passes. -/
theorem claim2_admission_inclusion (sale : EstateSale) (item : SaleItem)
    (stats : PriceSummary) (minPrice threshold : ℚ) :
    (processItem sale item stats minPrice threshold).isSome ↔
      (0 < stats.count ∧ minPrice ≤ stats.median ∧
        (profitMultiplier item.estimated_price stats.median = none ∨
          ∃ m, profitMultiplier item.estimated_price stats.median = some m ∧
            threshold ≤ m)) := by
  unfold processItem
  dsimp only
  split_ifs with h1
  · cases hpm : profitMultiplier item.estimated_price stats.median with
    | none => simp [hpm, h1]
    | some m =>
      dsimp only
      split_ifs with h2
      · simp only [Option.isSome_some, true_iff]
        exact ⟨h1.1, h1.2, Or.inr ⟨m, rfl, h2⟩⟩
      · simp only [Option.isSome_none, Bool.false_eq_true, false_iff]
        rintro ⟨-, -, hor | ⟨m2, hm2, hle⟩⟩
        · simp at hor
        · rw [Option.some_inj] at hm2
          exact h2 (hm2 ▸ hle)
  · simp only [Option.isSome_none, Bool.false_eq_true, false_iff]
    rintro ⟨hc, hm, -⟩
    exact h1 ⟨hc, hm⟩

/-! ### Vision-merge frame conditions (C7) -/

theorem updateFirstMatch_app (f : VisionFinding) (pre : List SaleItem)
    (it : SaleItem) (post : List SaleItem)
    (hpre : ∀ x ∈ pre, x.brand ≠ f.brand) (hit : it.brand = f.brand) :
    updateFirstMatch f (pre ++ it :: post) =
      pre ++ { it with source := "both", reasoning := f.reasoning } :: post := by
  induction pre with
  | nil => simp [updateFirstMatch, hit]
  | cons x xs ih =>
    have hx : x.brand ≠ f.brand := hpre x (List.mem_cons_self _ _)
    simp only [List.cons_append, updateFirstMatch, if_neg hx, List.append_eq]
    rw [ih (fun y hy => hpre y (List.mem_cons_of_mem _ hy))]

/-- C7: when a vision finding's brand equals the brand of an existing
item (the first such item being `it`), the merge updates that item in
place — provenance becomes `"both"`, reasoning is overwritten, and every
other field of it, every other item, and the list length are unchanged;
no new item is appended. -/
theorem claim7_merge_in_place (f : VisionFinding) (pre : List SaleItem)
    (it : SaleItem) (post : List SaleItem)
    (hpre : ∀ x ∈ pre, x.brand ≠ f.brand) (hit : it.brand = f.brand) :
    mergeFinding (pre ++ it :: post) f =
      pre ++ { it with source := "both", reasoning := f.reasoning } :: post ∧
    (mergeFinding (pre ++ it :: post) f).length = (pre ++ it :: post).length := by
  have hany : (pre ++ it :: post).any (fun x => x.brand == f.brand) = true := by
    refine List.any_eq_true.mpr ⟨it, ?_, by simp [hit]⟩
    simp
  have heq : mergeFinding (pre ++ it :: post) f =
      pre ++ { it with source := "both", reasoning := f.reasoning } :: post := by
    unfold mergeFinding
    rw [if_pos hany]
    exact updateFirstMatch_app f pre it post hpre hit
  exact ⟨heq, by rw [heq]; simp⟩

/-- C7 (witness): the theorem applied to a two-item list whose second
item matches the finding's brand. -/
theorem claim7_witness :
    ((∀ x ∈ [{ brand := "Rolex", description := "d0" : SaleItem }],
        x.brand ≠ ("Patagonia" : String)) ∧
      ({ brand := "Patagonia", description := "d1", estimated_price := some 45 : SaleItem}).brand
        = ("Patagonia" : String)) ∧
    mergeFinding
        [{ brand := "Rolex", description := "d0" },
         { brand := "Patagonia", description := "d1", estimated_price := some 45 }]
        { brand := "Patagonia", reasoning := "seen in photo" } =
      [{ brand := "Rolex", description := "d0" },
       { brand := "Patagonia", description := "d1", estimated_price := some 45,
         source := "both", reasoning := "seen in photo" }] :=
  ⟨⟨by simp, rfl⟩,
    (claim7_merge_in_place { brand := "Patagonia", reasoning := "seen in photo" }
      [{ brand := "Rolex", description := "d0" }]
      { brand := "Patagonia", description := "d1", estimated_price := some 45 }
      [] (by simp) rfl).1⟩

/-! ### Vision-phase error isolation (C9) -/

/-- C9: when the photo analysis of one sale raises, the `except` block
catches it — that sale's accumulated items are left untouched — and every
sale before and after it is processed exactly as it would otherwise be;
the batch is never aborted and its length is preserved. -/
theorem claim9_error_isolation
    (analyzeF : EstateSale → Except String (List VisionFinding))
    (pre : List EstateSale) (s : EstateSale) (post : List EstateSale)
    (e : String) (herr : analyzeF s = .error e) :
    visionPhase analyzeF (pre ++ s :: post) =
      visionPhase analyzeF pre ++ s :: visionPhase analyzeF post ∧
    (visionPhase analyzeF (pre ++ s :: post)).length = (pre ++ s :: post).length := by
  constructor
  · unfold visionPhase
    rw [List.map_append, List.map_cons, herr]
    rfl
  · unfold visionPhase
    simp

/-- C9 (witness): a batch of three sales whose middle analysis fails;
the failing sale passes through unchanged and the outer sales are still
processed. -/
theorem claim9_witness :
    ((fun sl => if sl.sale_id = "B" then (Except.error "boom" : Except String (List VisionFinding))
        else Except.ok []) (mkSale "B") = Except.error "boom") ∧
    visionPhase
        (fun sl => if sl.sale_id = "B" then (Except.error "boom" : Except String (List VisionFinding))
          else Except.ok [])
        ([mkSale "A"] ++ mkSale "B" :: [mkSale "C"]) =
      visionPhase
          (fun sl => if sl.sale_id = "B" then (Except.error "boom" : Except String (List VisionFinding))
            else Except.ok [])
          [mkSale "A"] ++
        mkSale "B" ::
          visionPhase
            (fun sl => if sl.sale_id = "B" then (Except.error "boom" : Except String (List VisionFinding))
              else Except.ok [])
            [mkSale "C"] :=
  ⟨by simp [mkSale],
    (claim9_error_isolation _ [mkSale "A"] (mkSale "B") [mkSale "C"] "boom"
      (by simp [mkSale])).1⟩

/-! ### Output ranking: descending and stable (C8) -/

theorem filter_median_orderedInsert (m : ℚ) (a : ArbitrageOpportunity)
    (l : List ArbitrageOpportunity) :
    (List.orderedInsert medianDesc a l).filter
        (fun o => decide (o.ebay_median_sold = m)) =
      if a.ebay_median_sold = m
      then a :: l.filter (fun o => decide (o.ebay_median_sold = m))
      else l.filter (fun o => decide (o.ebay_median_sold = m)) := by
  induction l with
  | nil =>
    by_cases ha : a.ebay_median_sold = m <;>
      simp [List.orderedInsert, List.filter, ha]
  | cons b bs ih =>
    by_cases hr : medianDesc a b
    · rw [List.orderedInsert, if_pos hr]
      by_cases ha : a.ebay_median_sold = m <;>
        simp [List.filter_cons, ha]
    · rw [List.orderedInsert, if_neg hr, List.filter_cons, ih]
      by_cases ha : a.ebay_median_sold = m
      · have hb : ¬ (b.ebay_median_sold = m) := by
          unfold medianDesc at hr
          push_neg at hr
          intro hbm
          rw [hbm, ← ha] at hr
          exact lt_irrefl _ hr
        simp [List.filter_cons, ha, hb]
      · simp [List.filter_cons, ha]

/-- C8: the displayed list is a permutation of the computed
opportunities, sorted by eBay median sold price in descending order, and
the sort is stable — for every key value, the opportunities carrying that
median appear in their original encounter order. -/
theorem claim8_ranking (opps : List ArbitrageOpportunity) :
    (display_sort opps).Perm opps ∧
    List.Sorted medianDesc (display_sort opps) ∧
    ∀ m : ℚ,
      (display_sort opps).filter (fun o => decide (o.ebay_median_sold = m)) =
        opps.filter (fun o => decide (o.ebay_median_sold = m)) := by
  refine ⟨List.perm_insertionSort _ _, ?_, ?_⟩
  · haveI h1 : IsTotal ArbitrageOpportunity medianDesc := ⟨fun a b => le_total _ _⟩
    haveI h2 : IsTrans ArbitrageOpportunity medianDesc :=
      ⟨fun a b c hab hbc => le_trans hbc hab⟩
    exact List.sorted_insertionSort _ _
  · intro m
    induction opps with
    | nil => rfl
    | cons a as ih =>
      unfold display_sort at ih ⊢
      rw [List.insertionSort, filter_median_orderedInsert, ih, List.filter_cons]
      by_cases ha : a.ebay_median_sold = m <;> simp [ha]

/-! ### Brand matcher: one item per brand, whole-word match, first term
wins (C4) -/

theorem findSome?_eq_some_decomp {α β : Type} (f : α → Option β) :
    ∀ (l : List α) (b : β), l.findSome? f = some b →
      ∃ pre x post, l = pre ++ x :: post ∧ (∀ y ∈ pre, f y = none) ∧ f x = some b := by
  intro l
  induction l with
  | nil => intro b h; simp [List.findSome?] at h
  | cons a as ih =>
    intro b h
    rw [List.findSome?_cons] at h
    cases hfa : f a with
    | some c =>
      rw [hfa] at h
      refine ⟨[], a, as, by simp, by simp, ?_⟩
      rw [hfa]
      exact h
    | none =>
      rw [hfa] at h
      obtain ⟨pre, x, post, hl, hpre, hx⟩ := ih b h
      exact ⟨a :: pre, x, post, by rw [hl]; simp,
        fun y hy => by
          rcases List.mem_cons.mp hy with rfl | hy2
          · exact hfa
          · exact hpre y hy2, hx⟩

theorem matchBrand_brand {text : List Char} {b : BrandConfig} {it : SaleItem}
    (h : matchBrand text b = some it) : it.brand = b.name := by
  unfold matchBrand at h
  cases hf : brandFirstMatch text b with
  | none => rw [hf] at h; simp at h
  | some ti =>
    rw [hf] at h
    simp only [Option.map_some', Option.some_inj] at h
    rw [← h]
    rfl

theorem filterMap_matchBrand_brands_sublist (text : List Char) :
    ∀ brands : List BrandConfig,
      (((brands.filterMap (matchBrand text)).map (·.brand)).Sublist
        (brands.map (·.name))) := by
  intro brands
  induction brands with
  | nil => simp
  | cons b bs ih =>
    rw [List.filterMap_cons]
    cases hm : matchBrand text b with
    | none =>
      simp only [List.map_cons]
      exact ih.cons _
    | some it =>
      simp only [List.map_cons]
      rw [matchBrand_brand hm]
      exact ih.cons₂ _

/-- C4: with distinct configured brand names (the data-model invariant),
the matcher returns at most one item per brand — the emitted brands are
pairwise distinct — and every returned item comes from some configured
brand whose term list, split as `pre ++ t :: post`, has no match for any
term of `pre` while `t` has a leftmost whole-word case-insensitive match
at some position `i`, from which the item is built. -/
theorem claim4_brand_matcher (brands : List BrandConfig) (text : List Char)
    (hnd : (brands.map (·.name)).Nodup) :
    ((match_sale brands text).map (·.brand)).Nodup ∧
    ∀ item ∈ match_sale brands text,
      ∃ b ∈ brands, item.brand = b.name ∧
        ∃ pre t post, b.search_terms = pre ++ t :: post ∧
          (∀ t2 ∈ pre, firstMatchPos text t2.toList = none) ∧
          ∃ i, firstMatchPos text t.toList = some i ∧
            termMatchAt text t.toList i = true ∧
            item = mkTextItem text b.name t.toList i := by
  constructor
  · unfold match_sale
    split_ifs with ht
    · simp
    · exact ((filterMap_matchBrand_brands_sublist text brands).nodup hnd)
  · intro item hitem
    unfold match_sale at hitem
    split_ifs at hitem with ht
    · simp at hitem
    · obtain ⟨b, hb, hmb⟩ := List.mem_filterMap.mp hitem
      refine ⟨b, hb, matchBrand_brand hmb, ?_⟩
      unfold matchBrand at hmb
      cases hf : brandFirstMatch text b with
      | none => rw [hf] at hmb; simp at hmb
      | some ti =>
        rw [hf] at hmb
        simp only [Option.map_some', Option.some_inj] at hmb
        unfold brandFirstMatch at hf
        obtain ⟨pre, t, post, hsplit, hpre, hx⟩ := findSome?_eq_some_decomp _ _ _ hf
        cases hfm : firstMatchPos text t.toList with
        | none => rw [hfm] at hx; simp at hx
        | some i =>
          rw [hfm] at hx
          simp only [Option.map_some', Option.some_inj] at hx
          refine ⟨pre, t, post, hsplit,
            fun t2 ht2 => ?_, i, ?_, ?_, ?_⟩
          · have := hpre t2 ht2
            cases hfm2 : firstMatchPos text t2.toList with
            | none => rfl
            | some j => rw [hfm2] at this; simp at this
          · exact hfm
          · exact List.find?_some (p := fun i => termMatchAt text t.toList i)
              (by
                unfold firstMatchPos at hfm
                exact hfm)
          · rw [← hmb, ← hx]

/-- C4 (witness): the theorem applied to one brand rule and the sale
description of the spec's worked example. -/
theorem claim4_witness :
    (([{ name := "Patagonia", category := "Outdoor",
          search_terms := ["patagonia"], ebay_search_suffix := "fleece jacket",
          min_ebay_price := 20 : BrandConfig }].map (·.name)).Nodup) ∧
    ((match_sale
        [{ name := "Patagonia", category := "Outdoor",
           search_terms := ["patagonia"], ebay_search_suffix := "fleece jacket",
           min_ebay_price := 20 }]
        "Nice Patagonia fleece, barely worn, $45".toList).map (·.brand)).Nodup ∧
    ∀ item ∈ match_sale
        [{ name := "Patagonia", category := "Outdoor",
           search_terms := ["patagonia"], ebay_search_suffix := "fleece jacket",
           min_ebay_price := 20 }]
        "Nice Patagonia fleece, barely worn, $45".toList,
      ∃ b ∈ [{ name := "Patagonia", category := "Outdoor",
               search_terms := ["patagonia"], ebay_search_suffix := "fleece jacket",
               min_ebay_price := 20 : BrandConfig }], item.brand = b.name ∧
        ∃ pre t post, b.search_terms = pre ++ t :: post ∧
          (∀ t2 ∈ pre,
            firstMatchPos "Nice Patagonia fleece, barely worn, $45".toList t2.toList = none) ∧
          ∃ i, firstMatchPos "Nice Patagonia fleece, barely worn, $45".toList t.toList = some i ∧
            termMatchAt "Nice Patagonia fleece, barely worn, $45".toList t.toList i = true ∧
            item = mkTextItem "Nice Patagonia fleece, barely worn, $45".toList b.name t.toList i :=
  ⟨by simp,
    (claim4_brand_matcher _ _ (by simp)).1,
    (claim4_brand_matcher _ _ (by simp)).2⟩

/-! ### Query builder: length bound and word-boundary trimming (C3) -/

theorem dropWhile_first_not (p : Char → Bool) :
    ∀ (l : List Char) (c : Char) (rest : List Char),
      l.dropWhile p = c :: rest → p c = false := by
  intro l
  induction l with
  | nil => intro c rest h; simp [List.dropWhile] at h
  | cons a as ih =>
    intro c rest h
    rw [List.dropWhile_cons] at h
    split_ifs at h with hp
    · exact ih c rest h
    · cases h
      simpa using hp

theorem dropLastWord_length_le (s : List Char) : (dropLastWord s).length ≤ s.length := by
  unfold dropLastWord
  split
  · exact le_rfl
  · rename_i c rest heq
    have h1 : (c :: rest).length ≤ s.reverse.length := by
      rw [← heq]
      exact (List.dropWhile_sublist _).length_le
    simp only [List.length_cons, List.length_reverse] at h1
    simp only [List.length_reverse]
    omega

theorem dropLastWord_no_space {s : List Char} (h : ' ' ∉ s) : dropLastWord s = s := by
  unfold dropLastWord
  have hall : ∀ x ∈ s.reverse, decide (x ≠ ' ') = true := by
    intro c hc
    simp only [decide_eq_true_eq]
    intro hcs
    subst hcs
    exact h (List.mem_reverse.mp hc)
  rw [List.dropWhile_eq_nil_iff.mpr hall]

theorem dropLastWord_space_decomp {s : List Char} (h : ' ' ∈ s) :
    ∃ t, s = dropLastWord s ++ ' ' :: t ∧ ' ' ∉ t := by
  cases hd : s.reverse.dropWhile (fun c => c ≠ ' ') with
  | nil =>
    exfalso
    have hall := List.dropWhile_eq_nil_iff.mp hd
    have := hall ' ' (List.mem_reverse.mpr h)
    simp at this
  | cons c rest =>
    have hc : decide (c ≠ ' ') = false := dropWhile_first_not _ _ _ _ hd
    have hcsp : c = ' ' := by simpa using hc
    subst hcsp
    have hsplit : s.reverse.takeWhile (fun c => c ≠ ' ') ++ ' ' :: rest = s.reverse := by
      rw [← hd]
      exact List.takeWhile_append_dropWhile _ _
    have hdlw : dropLastWord s = rest.reverse := by
      unfold dropLastWord
      rw [hd]
    refine ⟨(s.reverse.takeWhile (fun c => c ≠ ' ')).reverse, ?_, ?_⟩
    · rw [hdlw]
      conv_lhs => rw [← List.reverse_reverse s, ← hsplit]
      simp [List.reverse_append]
    · intro hsp
      have hmem := List.mem_reverse.mp hsp
      have := List.mem_takeWhile_imp hmem
      simp at this

/-- C3 (amended): the synthesized query of `_simplify_query` never
exceeds 50 characters; when it is not truncated it equals the raw query,
and when it is truncated it is either a prefix of the raw query followed
there by a space (a whole-word cut) or — when the 50-character prefix
contains no space — exactly that prefix, which may split a word. -/
theorem claim3_query_builder (brand item_type : List Char) :
    (simplifyQueryChars brand item_type).length ≤ 50 ∧
    ((rawQuery brand item_type).length ≤ 50 →
      simplifyQueryChars brand item_type = rawQuery brand item_type) ∧
    (50 < (rawQuery brand item_type).length →
      (∃ u, rawQuery brand item_type = simplifyQueryChars brand item_type ++ ' ' :: u) ∨
      (simplifyQueryChars brand item_type = (rawQuery brand item_type).take 50 ∧
        ' ' ∉ (rawQuery brand item_type).take 50)) := by
  unfold simplifyQueryChars
  dsimp only
  split_ifs with h50
  · refine ⟨?_, ?_, ?_⟩
    · calc (dropLastWord ((rawQuery brand item_type).take 50)).length
          ≤ ((rawQuery brand item_type).take 50).length := dropLastWord_length_le _
        _ ≤ 50 := by
            rw [List.length_take]
            exact min_le_left _ _
    · intro hle
      omega
    · intro _
      by_cases hsp : ' ' ∈ (rawQuery brand item_type).take 50
      · left
        obtain ⟨t, hts, htn⟩ := dropLastWord_space_decomp hsp
        refine ⟨t ++ (rawQuery brand item_type).drop 50, ?_⟩
        calc rawQuery brand item_type
            = (rawQuery brand item_type).take 50 ++ (rawQuery brand item_type).drop 50 :=
              (List.take_append_drop 50 _).symm
          _ = (dropLastWord ((rawQuery brand item_type).take 50) ++ ' ' :: t) ++
                (rawQuery brand item_type).drop 50 :=
              congrArg (· ++ (rawQuery brand item_type).drop 50) hts
          _ = dropLastWord ((rawQuery brand item_type).take 50) ++
                ' ' :: (t ++ (rawQuery brand item_type).drop 50) := by
              simp [List.append_assoc]
      · right
        exact ⟨dropLastWord_no_space hsp, hsp⟩
  · exact ⟨by omega, fun _ => rfl, fun hgt => absurd hgt h50⟩

/-- C3 (counterexample): the claim fails on two counts.  A candidate item
whose brand has a configured rule gets the query `"<brand> <suffix>"`
with no truncation at all — with a 60-character suffix the query has 70
characters.  And the synthesized query for a single 60-character word is
cut to exactly 50 characters in the middle of that word, because the
50-character prefix contains no space to trim back to. -/
theorem claim3_counterexample :
    50 < ((build_query
        (some { name := "Patagonia", category := "Outdoor",
                search_terms := ["patagonia"],
                ebay_search_suffix := String.mk (List.replicate 60 'b'),
                min_ebay_price := 20 })
        { brand := "Patagonia", description := "" }).1).length ∧
    simplifyQueryChars [] (List.replicate 60 'a') = List.replicate 50 'a' ∧
    rawQuery [] (List.replicate 60 'a') = List.replicate 60 'a' := by
  refine ⟨by decide, by decide, by decide⟩

/-- C3 (witness): the amended theorem applied to the 60-character
single-word item type: the result keeps the 50-character bound and falls
in the no-space case of the truncation disjunction. -/
theorem claim3_witness :
    (simplifyQueryChars [] (List.replicate 60 'a')).length ≤ 50 ∧
    50 < (rawQuery [] (List.replicate 60 'a')).length ∧
    ((∃ u, rawQuery [] (List.replicate 60 'a') =
        simplifyQueryChars [] (List.replicate 60 'a') ++ ' ' :: u) ∨
      (simplifyQueryChars [] (List.replicate 60 'a') =
          (rawQuery [] (List.replicate 60 'a')).take 50 ∧
        ' ' ∉ (rawQuery [] (List.replicate 60 'a')).take 50)) :=
  ⟨(claim3_query_builder [] (List.replicate 60 'a')).1, by decide,
    (claim3_query_builder [] (List.replicate 60 'a')).2.2 (by decide)⟩

end EstateArb
